import Mathlib

/-!
Verification of the MatchText/MostSimilar core against its specification.

The definitions below are shallow embeddings of the C++ sources:
`src/MatchText/MostSimilar.cpp` (version/date heuristic, scoring loop, row
construction, pipeline control flow) and `src/MatchText/Statistics.cpp`
(UTF-8 decoding, streaming tokenizer, document statistics, TF-IDF cosine
similarity, SimHash).  Machine integers are modelled as `Nat`/`Int`,
`double` scores as `ℚ` (or `ℝ` where logarithms/square roots occur), and
the locale/stop-word configuration as injected parameters, following the
spec's own modelling guidance.
-/

namespace MostSimilar

/-- Embeds `struct VersionInfo` from MostSimilar.cpp: the optional ordering
descriptor extracted from a filename. -/
structure VersionInfo where
  has_version : Bool := false
  is_date : Bool := false
  parts : List Int := []
  suffix : Int := 0
  has_tag : Bool := false
deriving DecidableEq, Repr

/-- Embeds the component-wise comparison loop inside `CompareVersionInfo`
(lines 384-391): compare the numeric parts left to right, treating missing
trailing components as 0; the first difference decides. -/
def compareParts : List Int → List Int → Int
  | [], [] => 0
  | [], r :: rs => if (0 : Int) ≠ r then (if (0 : Int) < r then -1 else 1) else compareParts [] rs
  | l :: ls, [] => if l ≠ (0 : Int) then (if l < (0 : Int) then -1 else 1) else compareParts ls []
  | l :: ls, r :: rs => if l ≠ r then (if l < r then -1 else 1) else compareParts ls rs
termination_by l r => l.length + r.length

/-- Embeds `CompareVersionInfo` (MostSimilar.cpp lines 379-412): ranks two
version descriptors; positive means the left descriptor ranks higher. -/
def CompareVersionInfo (left right : VersionInfo) : Int :=
  if left.is_date ≠ right.is_date then
    (if left.is_date then 1 else -1)
  else if left.has_version ∧ right.has_version then
    (let pc := compareParts left.parts right.parts
     if pc ≠ 0 then pc
     else if left.suffix ≠ right.suffix then (if left.suffix < right.suffix then -1 else 1)
     else if left.has_tag ≠ right.has_tag then (if left.has_tag then 1 else -1)
     else 0)
  else if left.has_version ≠ right.has_version then
    (if ¬left.has_version then (if left.has_tag then 1 else -1)
     else (if right.has_tag then -1 else 1))
  else if left.has_tag ≠ right.has_tag then (if left.has_tag then 1 else -1)
  else 0

/-- Embeds `struct FileTimeInfo` (MostSimilar.cpp lines 128-131): an optional
last-modified timestamp, with `valid = false` when the filesystem query
failed.  File times are modelled as integers, which preserves their total
order. -/
structure FileTimeInfo where
  valid : Bool := false
  value : Int := 0
deriving DecidableEq, Repr

/-- Embeds `ChooseMoveIndex` (MostSimilar.cpp lines 422-439): given two
document indices, returns the one to treat as the duplicate.  The version
comparison decides first; then modification times (earlier loses, unknown
loses to known); then the larger discovery index loses. -/
def ChooseMoveIndex (left right : Nat) (versions : Nat → VersionInfo)
    (times : Nat → FileTimeInfo) : Nat :=
  let version_cmp := CompareVersionInfo (versions left) (versions right)
  if version_cmp ≠ 0 then
    (if 0 < version_cmp then right else left)
  else
    let left_time := times left
    let right_time := times right
    if left_time.valid ∧ right_time.valid ∧ left_time.value ≠ right_time.value then
      (if left_time.value < right_time.value then left else right)
    else if left_time.valid ≠ right_time.valid then
      (if left_time.valid then right else left)
    else
      (if right < left then left else right)

/-- Embeds the per-document best-match slots of the scoring pass
(MostSimilar.cpp lines 826-827): `best_index` holds the sentinel `n` until
a partner is recorded and `best_score` starts at `-1.0`. -/
structure MatchState where
  bestIdx : Nat → Nat
  bestScore : Nat → ℚ

/-- Embeds one conditional slot update of the scoring loop (lines 841-848):
slot `k` receives partner `j` with score `s` only on a strict improvement
of the stored best score. -/
def updateSlot (st : MatchState) (k j : Nat) (s : ℚ) : MatchState :=
  if st.bestScore k < s then
    { bestIdx := fun m => if m = k then j else st.bestIdx m,
      bestScore := fun m => if m = k then s else st.bestScore m }
  else st

/-- Embeds the body of the inner scoring loop (lines 838-848): the pair
(i, j) is scored once and the score offered to both documents' slots. -/
def stepPair (score : Nat → Nat → ℚ) (st : MatchState) (p : Nat × Nat) : MatchState :=
  let s := score p.1 p.2
  updateSlot (updateSlot st p.1 p.2 s) p.2 p.1 s

/-- The unordered pairs (i, j) with i < j < n, listed in the iteration
order of the nested loops at lines 829-831. -/
def allPairs (n : Nat) : List (Nat × Nat) :=
  (List.range n).flatMap (fun i => (List.range' (i + 1) (n - (i + 1))).map (fun j => (i, j)))

/-- The initial match state (lines 826-827). -/
def initState (n : Nat) : MatchState :=
  { bestIdx := fun _ => n, bestScore := fun _ => -1 }

/-- Embeds the whole O(n^2) scoring pass (lines 828-850). -/
def scoringPass (n : Nat) (score : Nat → Nat → ℚ) : MatchState :=
  (allPairs n).foldl (stepPair score) (initState n)

/-- The score the scoring loop associates with the unordered pair {k, j}:
the pair is always scored with the smaller index first. -/
def pairScore (score : Nat → Nat → ℚ) (k j : Nat) : ℚ :=
  if k < j then score k j else score j k

/-- The view of one document's slot updates: the partner/score events that
touch slot `k` when the loop processes pair `p`. -/
def occOf (k : Nat) (score : Nat → Nat → ℚ) (p : Nat × Nat) : Option (Nat × ℚ) :=
  if p.1 = k then some (p.2, score p.1 p.2)
  else if p.2 = k then some (p.1, score p.1 p.2)
  else none

/-- One document's slot update in isolation: keep the stored pair unless
the offered score is strictly greater. -/
def step1 (b e : Nat × ℚ) : Nat × ℚ :=
  if b.2 < e.2 then e else b

/-- The partner/score events for document `k` during the scoring pass, in
the order the loop produces them: partners below `k` first (each from its
own outer iteration), then partners above `k`. -/
def occList (n k : Nat) (score : Nat → Nat → ℚ) : List (Nat × ℚ) :=
  ((List.range k).map (fun i => (i, score i k))) ++
    ((List.range' (k + 1) (n - (k + 1))).map (fun j => (j, score k j)))

/-- Embeds `IsDedupScore` (MostSimilar.cpp lines 441-445): the score passes
the threshold after widening by the 8-decimal display epsilon 0.5e-8. -/
def IsDedupScore (score threshold : ℚ) : Bool :=
  threshold ≤ score + 1 / 200000000

/-- The `output_pair_threshold` constant 1e-8 of the row-construction loop
(MostSimilar.cpp line 899). -/
def outputPairThreshold : ℚ := 1 / 100000000

/-- The body of the row-construction loop (MostSimilar.cpp lines 929-953)
for document `i`, with rows carrying document indices instead of masked
path strings: a reciprocal pair passing the output threshold on both sides
is emitted only from its keeper's iteration, keeper left and duplicate
right; otherwise a plain (file, best-match) row is emitted. -/
def rowFn (n : Nat) (bestIdx : Nat → Nat) (bestScore : Nat → ℚ)
    (versions : Nat → VersionInfo) (times : Nat → FileTimeInfo) (i : Nat) :
    Option (Nat × Nat) :=
  let m := bestIdx i
  if m < n ∧ bestIdx m = i ∧ IsDedupScore (bestScore i) outputPairThreshold = true ∧
      IsDedupScore (bestScore m) outputPairThreshold = true then
    let dup := ChooseMoveIndex i m versions times
    let keeper := if dup = i then m else i
    if i ≠ keeper then none
    else some (keeper, dup)
  else some (i, m)

/-- Embeds the whole row-construction loop (MostSimilar.cpp lines 929-953):
one pass over the documents in index order. -/
def mkRows (n : Nat) (bestIdx : Nat → Nat) (bestScore : Nat → ℚ)
    (versions : Nat → VersionInfo) (times : Nat → FileTimeInfo) : List (Nat × Nat) :=
  (List.range n).filterMap (rowFn n bestIdx bestScore versions times)

/-- Embeds `DecodeUtf8` (Statistics.cpp lines 15-114), reading from the
start of the unconsumed suffix of the pending buffer.  `none` is the
C++ `return false` ("need more bytes", only without `final_chunk`);
`some (cp, k)` decodes codepoint `cp` advancing the index by `k` bytes.
Bytes are naturals (values below 256 in any real buffer). -/
def DecodeUtf8 (data : List Nat) (final_chunk : Bool) : Option (Nat × Nat) :=
  if data.length = 0 then none
  else
    let c0 := data.getD 0 0
    if c0 < 0x80 then some (c0, 1)
    else if c0 < 0xC2 then some (0xFFFD, 1)
    else if c0 < 0xE0 then
      if data.length < 2 then (if final_chunk then some (0xFFFD, 1) else none)
      else
        let c1 := data.getD 1 0
        if ¬(c1 &&& 0xC0 = 0x80) then some (0xFFFD, 1)
        else some (((c0 &&& 0x1F) <<< 6) ||| (c1 &&& 0x3F), 2)
    else if c0 < 0xF0 then
      if data.length < 3 then (if final_chunk then some (0xFFFD, 1) else none)
      else
        let c1 := data.getD 1 0
        let c2 := data.getD 2 0
        if ¬(c1 &&& 0xC0 = 0x80) ∨ ¬(c2 &&& 0xC0 = 0x80) then some (0xFFFD, 1)
        else if c0 = 0xE0 ∧ c1 < 0xA0 then some (0xFFFD, 1)
        else if c0 = 0xED ∧ 0xA0 ≤ c1 then some (0xFFFD, 1)
        else some (((c0 &&& 0x0F) <<< 12) ||| ((c1 &&& 0x3F) <<< 6) ||| (c2 &&& 0x3F), 3)
    else if c0 < 0xF5 then
      if data.length < 4 then (if final_chunk then some (0xFFFD, 1) else none)
      else
        let c1 := data.getD 1 0
        let c2 := data.getD 2 0
        let c3 := data.getD 3 0
        if ¬(c1 &&& 0xC0 = 0x80) ∨ ¬(c2 &&& 0xC0 = 0x80) ∨ ¬(c3 &&& 0xC0 = 0x80) then
          some (0xFFFD, 1)
        else if c0 = 0xF0 ∧ c1 < 0x90 then some (0xFFFD, 1)
        else if c0 = 0xF4 ∧ 0x90 ≤ c1 then some (0xFFFD, 1)
        else some (((c0 &&& 0x07) <<< 18) ||| ((c1 &&& 0x3F) <<< 12) |||
          ((c2 &&& 0x3F) <<< 6) ||| (c3 &&& 0x3F), 4)
    else some (0xFFFD, 1)

/-- Embeds `AppendUtf8` (Statistics.cpp lines 116-140): re-encode a
codepoint to UTF-8 bytes (out-of-range codepoints become the replacement
character's bytes). -/
def AppendUtf8 (codepoint : Nat) : List Nat :=
  if codepoint ≤ 0x7F then [codepoint]
  else if codepoint ≤ 0x7FF then
    [0xC0 ||| ((codepoint >>> 6) &&& 0x1F), 0x80 ||| (codepoint &&& 0x3F)]
  else if codepoint ≤ 0xFFFF then
    [0xE0 ||| ((codepoint >>> 12) &&& 0x0F), 0x80 ||| ((codepoint >>> 6) &&& 0x3F),
      0x80 ||| (codepoint &&& 0x3F)]
  else if codepoint ≤ 0x10FFFF then
    [0xF0 ||| ((codepoint >>> 18) &&& 0x07), 0x80 ||| ((codepoint >>> 12) &&& 0x3F),
      0x80 ||| ((codepoint >>> 6) &&& 0x3F), 0x80 ||| (codepoint &&& 0x3F)]
  else [0xEF, 0xBF, 0xBD]

/-- Embeds the `Statistics` store (Statistics.h lines 9-11): `_counts` as
an association list (an insertion-ordered view of the unordered map, whose
iteration order is unspecified) and the `_totWords` total.  Tokens are
UTF-8 byte strings. -/
structure TokStats where
  counts : List (List Nat × Nat) := []
  tot : Nat := 0
deriving DecidableEq, Repr, Inhabited

/-- Embeds the find/emplace/increment on `_counts` inside
`Statistics::AddToken` (Statistics.cpp lines 229-235). -/
def bumpCount : List (List Nat × Nat) → List Nat → List (List Nat × Nat)
  | [], t => [(t, 1)]
  | (k, c) :: rest, t => if k = t then (k, c + 1) :: rest else (k, c) :: bumpCount rest t

/-- Embeds `Statistics::AddToken` (Statistics.cpp lines 220-238) with the
stop-word set injected as configuration: empty and stop-word tokens
contribute nothing; otherwise the term's count and the total are
incremented.  (The C++ method also clears the caller's token buffer; the
tokenizer model clears it at each call site.) -/
def AddToken (isStop : List Nat → Bool) (st : TokStats) (token : List Nat) : TokStats :=
  if token.isEmpty then st
  else if isStop token then st
  else { counts := bumpCount st.counts token, tot := st.tot + 1 }

/-- Embeds `Statistics::Clear` (Statistics.cpp lines 246-249). -/
def ClearStats (_st : TokStats) : TokStats :=
  { counts := [], tot := 0 }

/-- Embeds `Statistics::IsEmpty` (Statistics.h line 34). -/
def IsEmptyStats (st : TokStats) : Bool :=
  st.tot == 0

/-- The injected tokenizer configuration: the stop-word set and the
locale's boundary classification and lowercasing (spec §9 models these as
process-wide read-only configuration), plus the `WCHAR_MAX` bound above
which codepoints are appended unfolded. -/
structure TokParams where
  isStop : List Nat → Bool
  isBoundary : Nat → Bool
  toLower : Nat → Nat
  wcharMax : Nat

/-- The tokenizer state (Statistics.h lines 46-48): the unconsumed byte
buffer `_pending`, the UTF-8 bytes of the token being accumulated
(`_token`), and the statistics sink. -/
structure TokState where
  pending : List Nat
  token : List Nat
  stats : TokStats

/-- Embeds the loop body of `StatisticsTokenizer::ProcessBuffer`
(Statistics.cpp lines 409-429) for one decoded codepoint, acting on the
token buffer and the statistics sink (the only state the loop body
touches): a replacement character or a boundary (whitespace, punctuation,
control) codepoint flushes the current token; any other codepoint is
case-folded when representable as `wchar_t` and appended re-encoded to
UTF-8. -/
def consumeCodepoint (P : TokParams) (token : List Nat) (stats : TokStats) (cp : Nat) :
    List Nat × TokStats :=
  if cp = 0xFFFD then ([], AddToken P.isStop stats token)
  else if cp ≤ P.wcharMax then
    if P.isBoundary cp then ([], AddToken P.isStop stats token)
    else (token ++ AppendUtf8 (P.toLower cp), stats)
  else (token ++ AppendUtf8 cp, stats)

/-- Every successful decode consumes at least one and at most `length`
bytes (stated before `ProcessBuffer`, whose termination needs it). -/
theorem decodeUtf8_bounds (data : List Nat) (final : Bool) (cp k : Nat)
    (h : DecodeUtf8 data final = some (cp, k)) : 1 ≤ k ∧ k ≤ data.length := by
  simp only [DecodeUtf8] at h
  by_cases h0 : data.length = 0
  · rw [if_pos h0] at h
    exact absurd h (by simp)
  · rw [if_neg h0] at h
    by_cases hA : data.getD 0 0 < 0x80
    · rw [if_pos hA] at h
      simp only [Option.some.injEq, Prod.mk.injEq] at h
      omega
    · rw [if_neg hA] at h
      by_cases hB : data.getD 0 0 < 0xC2
      · rw [if_pos hB] at h
        simp only [Option.some.injEq, Prod.mk.injEq] at h
        omega
      · rw [if_neg hB] at h
        by_cases hC : data.getD 0 0 < 0xE0
        · rw [if_pos hC] at h
          by_cases hl : data.length < 2
          · rw [if_pos hl] at h
            cases final <;> simp at h <;> omega
          · rw [if_neg hl] at h
            split_ifs at h <;> simp only [Option.some.injEq, Prod.mk.injEq] at h <;> omega
        · rw [if_neg hC] at h
          by_cases hD : data.getD 0 0 < 0xF0
          · rw [if_pos hD] at h
            by_cases hl : data.length < 3
            · rw [if_pos hl] at h
              cases final <;> simp at h <;> omega
            · rw [if_neg hl] at h
              split_ifs at h <;> simp only [Option.some.injEq, Prod.mk.injEq] at h <;> omega
          · rw [if_neg hD] at h
            by_cases hE : data.getD 0 0 < 0xF5
            · rw [if_pos hE] at h
              by_cases hl : data.length < 4
              · rw [if_pos hl] at h
                cases final <;> simp at h <;> omega
              · rw [if_neg hl] at h
                split_ifs at h <;> simp only [Option.some.injEq, Prod.mk.injEq] at h <;> omega
            · rw [if_neg hE] at h
              simp only [Option.some.injEq, Prod.mk.injEq] at h
              omega

/-- Embeds `StatisticsTokenizer::ProcessBuffer` (Statistics.cpp lines
406-437): decode codepoints until the buffer is exhausted or an incomplete
trailing multi-byte sequence must wait for more input; consumed bytes are
dropped from the buffer, and on the final chunk any remainder is
discarded. -/
def ProcessBuffer (P : TokParams) (final_chunk : Bool) (st : TokState) : TokState :=
  match h : DecodeUtf8 st.pending final_chunk with
  | none => if final_chunk then { st with pending := [] } else st
  | some (cp, k) =>
    ProcessBuffer P final_chunk
      ⟨st.pending.drop k, (consumeCodepoint P st.token st.stats cp).1,
        (consumeCodepoint P st.token st.stats cp).2⟩
termination_by st.pending.length
decreasing_by
  have hb := decodeUtf8_bounds st.pending final_chunk cp k h
  simp only [List.length_drop]
  omega

/-- Embeds `StatisticsTokenizer::AddChunk` (Statistics.cpp lines 396-399):
append the new bytes to the pending buffer and process what can already be
decoded. -/
def AddChunk (P : TokParams) (st : TokState) (data : List Nat) : TokState :=
  ProcessBuffer P false { st with pending := st.pending ++ data }

/-- Embeds `StatisticsTokenizer::Finish` (Statistics.cpp lines 401-404):
process the remainder as the final chunk, then flush the last partial
token into the statistics. -/
def Finish (P : TokParams) (st : TokState) : TokStats :=
  let st' := ProcessBuffer P true st
  AddToken P.isStop st'.stats st'.token

/-- The tokenizer's initial state over a fresh statistics sink. -/
def initTokState (st : TokStats) : TokState :=
  { pending := [], token := [], stats := st }

/-- Embeds `Statistics::AddText` (Statistics.cpp lines 240-244): run a
fresh tokenizer over the whole text and finish. -/
def AddText (P : TokParams) (st : TokStats) (text : List Nat) : TokStats :=
  Finish P (AddChunk P (initTokState st) text)

/-- The `DocumentStatistics` invariant of spec §3/§4.2: the stored total
equals the sum of the per-term counts, and every stored count is
positive. -/
def StatsInv (st : TokStats) : Prop :=
  st.tot = (st.counts.map (fun e => e.2)).sum ∧ ∀ e ∈ st.counts, 0 < e.2

/-- Embeds `Statistics::SimHash128` (Statistics.h lines 13-16): two 64-bit
halves, modelled as naturals (below 2^64 for any real signature). -/
structure SimHash128 where
  high : Nat := 0
  low : Nat := 0
deriving DecidableEq, Repr

/-- Embeds `Popcount64` (Statistics.cpp lines 164-171): Kernighan's loop,
clearing the lowest set bit until the value is zero. -/
def Popcount64 (value : Nat) : Nat :=
  if value = 0 then 0
  else Popcount64 (value &&& (value - 1)) + 1
termination_by value
decreasing_by
  have h1 : value &&& (value - 1) ≤ value - 1 := Nat.and_le_right
  omega

/-- The binary-digit sum of a natural number; a reference function used
only to bound `Popcount64`. -/
def popcountBits (n : Nat) : Nat :=
  if n = 0 then 0
  else n % 2 + popcountBits (n / 2)
termination_by n
decreasing_by
  exact Nat.div_lt_self (Nat.pos_of_ne_zero (by assumption)) (by omega)

/-- Embeds `Statistics::SimHashDistance` (Statistics.cpp lines 312-317):
the Hamming distance of the two 128-bit signatures divided by 128, with
the `double` result modelled as an exact rational. -/
def SimHashDistance (left right : SimHash128) : ℚ :=
  ((Popcount64 (left.low ^^^ right.low) + Popcount64 (left.high ^^^ right.high) : Nat) : ℚ)
    / 128

/-- Embeds `Statistics::SimHashSimilarity` (Statistics.cpp lines 319-321). -/
def SimHashSimilarity (left right : SimHash128) : ℚ :=
  1 - SimHashDistance left right

/-- The read-only view of one document's `Statistics` used by the TF-IDF
metric: the set of stored terms (the map's keys) with their counts and the
stored total. -/
structure Doc where
  terms : Finset (List Nat)
  count : List Nat → Nat
  tot : Nat

/-- The `_counts.find` lookup of Statistics.cpp (lines 351-352, 365-366):
a term absent from the map counts 0. -/
def lookupCount (d : Doc) (t : List Nat) : Nat :=
  if t ∈ d.terms then d.count t else 0

/-- The pair-local inverse document frequency of
`Statistics::TfIdfCosineSimilarity` (Statistics.cpp lines 353-354):
`ln((T+1)/(combined+1)) + 1` over the combined pair counts. -/
noncomputable def pairIdf (left right : Doc) (t : List Nat) : ℝ :=
  Real.log ((((left.tot : ℝ) + right.tot) + 1)
      / (((lookupCount left t + lookupCount right t : Nat) : ℝ) + 1)) + 1

/-- The TF-IDF weight of one term in one document of the pair
(Statistics.cpp lines 355-356). -/
noncomputable def tfWeight (d other : Doc) (t : List Nat) : ℝ :=
  ((lookupCount d t : ℝ) / (d.tot : ℝ)) * pairIdf d other t

/-- The dot-product accumulator of the first loop of
`TfIdfCosineSimilarity` (Statistics.cpp lines 358-362): over the left
document's terms that the right document also holds. -/
noncomputable def tfidfDot (A B : Doc) : ℝ :=
  ∑ t ∈ A.terms.filter (fun t => 0 < lookupCount B t), tfWeight A B t * tfWeight B A t

/-- The squared-norm accumulator of `TfIdfCosineSimilarity`
(Statistics.cpp lines 357 and 364-372): over one document's own terms. -/
noncomputable def tfidfNorm (A B : Doc) : ℝ :=
  ∑ t ∈ A.terms, tfWeight A B t * tfWeight A B t

/-- Embeds `Statistics::TfIdfCosineSimilarity` (Statistics.cpp lines
338-389): zero for an empty side, a nonpositive total, a nonpositive norm
or denominator; otherwise the cosine of the weight vectors clamped to
[0, 1]. -/
noncomputable def TfIdfCosineSimilarity (left right : Doc) : ℝ :=
  if left.tot = 0 ∨ right.tot = 0 then 0
  else if ((left.tot : ℝ) + right.tot) ≤ 0 then 0
  else if tfidfNorm left right ≤ 0 ∨ tfidfNorm right left ≤ 0 then 0
  else if Real.sqrt (tfidfNorm left right) * Real.sqrt (tfidfNorm right left) ≤ 0 then 0
  else if tfidfDot left right
      / (Real.sqrt (tfidfNorm left right) * Real.sqrt (tfidfNorm right left)) < 0 then 0
  else if 1 < tfidfDot left right
      / (Real.sqrt (tfidfNorm left right) * Real.sqrt (tfidfNorm right left)) then 1
  else tfidfDot left right
      / (Real.sqrt (tfidfNorm left right) * Real.sqrt (tfidfNorm right left))

/-- Embeds the per-file outcome handling of the loading loop
(MostSimilar.cpp lines 745-753): a file that fails to read contributes
nothing, a file whose statistics are empty is skipped, every other file is
kept in discovery order (restored after the parallel phase by the sort at
lines 793-795). -/
def LoadAndFilter (results : List (Option TokStats)) : List TokStats :=
  results.filterMap (fun r =>
    match r with
    | none => none
    | some st => if IsEmptyStats st then none else some st)

/-- Embeds the pipeline control flow around scoring (MostSimilar.cpp lines
812-815 and onwards): fewer than two usable documents is the fatal exit
status 2, returned before any scoring or row construction; otherwise the
scoring pass and the row construction run on the usable documents.  The
similarity metric and the per-file version/time data are injected. -/
def RunPipeline (sim : TokStats → TokStats → ℚ) (results : List (Option TokStats))
    (versions : Nat → VersionInfo) (times : Nat → FileTimeInfo) :
    Except Nat (List (Nat × Nat)) :=
  let docs := LoadAndFilter results
  if docs.length < 2 then Except.error 2
  else
    let score := fun i j => sim (docs.getD i default) (docs.getD j default)
    let st := scoringPass docs.length score
    Except.ok (mkRows docs.length st.bestIdx st.bestScore versions times)

end MostSimilar

namespace MostSimilar

/-- CompareVersionInfo gives the mixed-arity branch outcome from the
component-less side's tag alone. -/
theorem compareVersionInfo_mixed (L R : VersionInfo)
    (hdate : L.is_date = R.is_date) (hL : L.has_version = false)
    (hR : R.has_version = true) :
    CompareVersionInfo L R = (if L.has_tag then 1 else -1) ∧
    CompareVersionInfo R L = (if L.has_tag then -1 else 1) := by
  constructor <;>
    · unfold CompareVersionInfo
      simp [hdate, hL, hR]

/-- C1 counterexample: the claim says a versioned descriptor that itself
carries a tag outranks a tag-only descriptor, but `CompareVersionInfo`
ranks the tag-only (component-less) descriptor above the versioned one
whenever the tag-only side has `has_tag = true`, regardless of the
versioned side's own tag.  Both descriptors here are reachable from
filename extraction (e.g. stems `report_final` and `report_final2`). -/
theorem compareVersionInfo_tagged_version_loses :
    CompareVersionInfo ⟨false, false, [], 0, true⟩ ⟨true, false, [1], 0, true⟩ = 1 ∧
    CompareVersionInfo ⟨true, false, [1], 0, true⟩ ⟨false, false, [], 0, true⟩ = -1 := by
  decide

/-- C1 amended: for descriptors with equal `is_date` flags where exactly one
side has numeric components, `CompareVersionInfo` ranks the component-less
side above the versioned side exactly when the component-less side has
`has_tag = true`, irrespective of whether the versioned side carries a
tag. -/
theorem compareVersionInfo_componentless_rank (L R : VersionInfo)
    (hdate : L.is_date = R.is_date) (hL : L.has_version = false)
    (hR : R.has_version = true) :
    (0 < CompareVersionInfo L R ↔ L.has_tag = true) ∧
    (CompareVersionInfo R L < 0 ↔ L.has_tag = true) := by
  obtain ⟨h1, h2⟩ := compareVersionInfo_mixed L R hdate hL hR
  constructor
  · rw [h1]; cases L.has_tag <;> simp
  · rw [h2]; cases L.has_tag <;> simp

/-- Witness for the amended C1 theorem at a concrete pair of descriptors. -/
theorem compareVersionInfo_componentless_rank_witness :
    VersionInfo.is_date ⟨false, false, [], 0, true⟩ =
      VersionInfo.is_date ⟨true, false, [1], 0, false⟩ ∧
    VersionInfo.has_version ⟨false, false, [], 0, true⟩ = false ∧
    VersionInfo.has_version ⟨true, false, [1], 0, false⟩ = true ∧
    (0 < CompareVersionInfo ⟨false, false, [], 0, true⟩ ⟨true, false, [1], 0, false⟩ ↔
      VersionInfo.has_tag ⟨false, false, [], 0, true⟩ = true) :=
  ⟨by decide, by decide, by decide,
    (compareVersionInfo_componentless_rank ⟨false, false, [], 0, true⟩
      ⟨true, false, [1], 0, false⟩ (by decide) (by decide) (by decide)).1⟩

/-- C4: `ChooseMoveIndex` returns the file ranked lower by the version
comparison; on an exact descriptor tie it returns the file with the earlier
timestamp; an invalid timestamp loses to a known one; and on a full tie the
file with the larger discovery index is the duplicate. -/
theorem chooseMoveIndex_spec (l r : Nat) (versions : Nat → VersionInfo)
    (times : Nat → FileTimeInfo) :
    (CompareVersionInfo (versions l) (versions r) < 0 →
      ChooseMoveIndex l r versions times = l) ∧
    (0 < CompareVersionInfo (versions l) (versions r) →
      ChooseMoveIndex l r versions times = r) ∧
    (CompareVersionInfo (versions l) (versions r) = 0 →
      (times l).valid = true → (times r).valid = true →
      (times l).value < (times r).value →
      ChooseMoveIndex l r versions times = l) ∧
    (CompareVersionInfo (versions l) (versions r) = 0 →
      (times l).valid = true → (times r).valid = true →
      (times r).value < (times l).value →
      ChooseMoveIndex l r versions times = r) ∧
    (CompareVersionInfo (versions l) (versions r) = 0 →
      (times l).valid = false → (times r).valid = true →
      ChooseMoveIndex l r versions times = l) ∧
    (CompareVersionInfo (versions l) (versions r) = 0 →
      (times l).valid = true → (times r).valid = false →
      ChooseMoveIndex l r versions times = r) ∧
    (CompareVersionInfo (versions l) (versions r) = 0 →
      (times l).valid = (times r).valid →
      ((times l).valid = true → (times l).value = (times r).value) →
      ChooseMoveIndex l r versions times = max l r) := by
  refine ⟨?_, ?_, ?_, ?_, ?_, ?_, ?_⟩
  · intro h
    simp [ChooseMoveIndex, show CompareVersionInfo (versions l) (versions r) ≠ 0 by omega,
      show ¬(0 < CompareVersionInfo (versions l) (versions r)) by omega]
  · intro h
    simp [ChooseMoveIndex, show CompareVersionInfo (versions l) (versions r) ≠ 0 by omega, h]
  · intro hcmp hlv hrv hlt
    simp [ChooseMoveIndex, hcmp, hlv, hrv, ne_of_lt hlt, hlt]
  · intro hcmp hlv hrv hlt
    simp [ChooseMoveIndex, hcmp, hlv, hrv, (ne_of_lt hlt).symm, not_lt.mpr (le_of_lt hlt)]
  · intro hcmp hlv hrv
    simp [ChooseMoveIndex, hcmp, hlv, hrv]
  · intro hcmp hlv hrv
    simp [ChooseMoveIndex, hcmp, hlv, hrv]
  · intro hcmp hvalid hvalue
    cases hl : (times l).valid with
    | false =>
      simp [ChooseMoveIndex, hcmp, hl, hvalid ▸ hl]
      split <;> omega
    | true =>
      simp [ChooseMoveIndex, hcmp, hl, hvalid ▸ hl, hvalue hl]
      split <;> omega

theorem updateSlot_bestIdx_ne (st : MatchState) (k j m : Nat) (s : ℚ) (h : m ≠ k) :
    (updateSlot st k j s).bestIdx m = st.bestIdx m := by
  unfold updateSlot; split <;> simp [h]

theorem updateSlot_bestScore_ne (st : MatchState) (k j m : Nat) (s : ℚ) (h : m ≠ k) :
    (updateSlot st k j s).bestScore m = st.bestScore m := by
  unfold updateSlot; split <;> simp [h]

theorem updateSlot_self (st : MatchState) (k j : Nat) (s : ℚ) :
    ((updateSlot st k j s).bestIdx k, (updateSlot st k j s).bestScore k)
      = step1 (st.bestIdx k, st.bestScore k) (j, s) := by
  unfold updateSlot step1; split <;> simp_all

/-- Slot `k` of one loop-body step is exactly the isolated `step1` update
driven by the event `occOf` extracts for `k`. -/
theorem stepPair_slot (score : Nat → Nat → ℚ) (st : MatchState) (p : Nat × Nat)
    (hp : p.1 ≠ p.2) (k : Nat) :
    ((stepPair score st p).bestIdx k, (stepPair score st p).bestScore k)
      = (match occOf k score p with
         | some e => step1 (st.bestIdx k, st.bestScore k) e
         | none => (st.bestIdx k, st.bestScore k)) := by
  obtain ⟨i, j⟩ := p
  simp only at hp
  by_cases h1 : i = k
  · subst h1
    have e1 := updateSlot_bestIdx_ne (updateSlot st i j (score i j)) j i i (score i j) hp
    have e2 := updateSlot_bestScore_ne (updateSlot st i j (score i j)) j i i (score i j) hp
    simp only [stepPair, occOf, if_pos rfl, e1, e2]
    exact updateSlot_self st i j (score i j)
  · by_cases h2 : j = k
    · subst h2
      have e1 := updateSlot_bestIdx_ne st i j j (score i j) (Ne.symm hp)
      have e2 := updateSlot_bestScore_ne st i j j (score i j) (Ne.symm hp)
      simp only [stepPair, occOf, if_neg h1, if_pos rfl]
      rw [updateSlot_self (updateSlot st i j (score i j)) j i (score i j), e1, e2]
      simp
    · have hki : k ≠ i := fun h => h1 h.symm
      have hkj : k ≠ j := fun h => h2 h.symm
      simp only [stepPair, occOf, if_neg h1, if_neg h2]
      rw [updateSlot_bestIdx_ne _ j i k (score i j) hkj,
        updateSlot_bestScore_ne _ j i k (score i j) hkj,
        updateSlot_bestIdx_ne st i j k (score i j) hki,
        updateSlot_bestScore_ne st i j k (score i j) hki]

/-- Folding the whole pair list affects slot `k` exactly as folding the
filtered event list for `k` with the isolated one-slot update. -/
theorem foldl_stepPair_proj (score : Nat → Nat → ℚ) :
    ∀ (ps : List (Nat × Nat)), (∀ p ∈ ps, p.1 ≠ p.2) → ∀ (st : MatchState) (k : Nat),
    ((ps.foldl (stepPair score) st).bestIdx k, (ps.foldl (stepPair score) st).bestScore k)
      = (ps.filterMap (occOf k score)).foldl step1 (st.bestIdx k, st.bestScore k) := by
  intro ps
  induction ps with
  | nil => intro _ st k; simp
  | cons p rest ih =>
    intro hne st k
    have hp : p.1 ≠ p.2 := hne p (by simp)
    have hrest : ∀ q ∈ rest, q.1 ≠ q.2 := fun q hq => hne q (by simp [hq])
    rw [List.foldl_cons, List.filterMap_cons, ih hrest (stepPair score st p) k]
    have := stepPair_slot score st p hp k
    cases hocc : occOf k score p with
    | none =>
      rw [hocc] at this
      simp only at this
      rw [Prod.mk.injEq] at this
      rw [this.1, this.2]
    | some e =>
      rw [hocc] at this
      simp only at this
      rw [Prod.mk.injEq] at this
      rw [List.foldl_cons, this.1, this.2]

/-- The one-slot fold never decreases the stored score, and ends at least
as high as every offered score. -/
theorem foldl_step1_score_ge :
    ∀ (l : List (Nat × ℚ)) (b : Nat × ℚ),
      b.2 ≤ (l.foldl step1 b).2 ∧ ∀ e ∈ l, e.2 ≤ (l.foldl step1 b).2 := by
  intro l
  induction l with
  | nil => intro b; simp
  | cons e rest ih =>
    intro b
    have hstep : b.2 ≤ (step1 b e).2 ∧ e.2 ≤ (step1 b e).2 := by
      unfold step1; split <;> constructor <;> simp_all <;> linarith
    obtain ⟨h1, h2⟩ := ih (step1 b e)
    rw [List.foldl_cons]
    refine ⟨le_trans hstep.1 h1, ?_⟩
    intro x hx
    rcases List.mem_cons.mp hx with rfl | hx
    · exact le_trans hstep.2 h1
    · exact h2 x hx

/-- With strict-improvement updates, the one-slot fold either never fires,
or ends at the first event whose score every earlier event (and the
initial score) is strictly below while no later event strictly exceeds
it. -/
theorem foldl_step1_first :
    ∀ (l : List (Nat × ℚ)) (b : Nat × ℚ),
      l.foldl step1 b = b ∨
      ∃ l1 e l2, l = l1 ++ e :: l2 ∧ l.foldl step1 b = e ∧
        (∀ x ∈ l1, x.2 < e.2) ∧ b.2 < e.2 ∧ (∀ x ∈ l2, x.2 ≤ e.2) := by
  intro l
  induction l with
  | nil => intro b; left; rfl
  | cons e0 rest ih =>
    intro b
    by_cases h : b.2 < e0.2
    · right
      have hstep : step1 b e0 = e0 := by unfold step1; simp [h]
      rcases ih e0 with h1 | ⟨l1, e, l2, hdec, hres, hl1, hb, hl2⟩
      · refine ⟨[], e0, rest, by simp, ?_, by simp, h, ?_⟩
        · rw [List.foldl_cons, hstep, h1]
        · intro x hx
          have := (foldl_step1_score_ge rest e0).2 x hx
          rw [h1] at this; exact this
      · refine ⟨e0 :: l1, e, l2, by simp [hdec], ?_, ?_, lt_trans h hb, hl2⟩
        · rw [List.foldl_cons, hstep, hres]
        · intro x hx
          rcases List.mem_cons.mp hx with rfl | hx
          · exact hb
          · exact hl1 x hx
    · have hstep : step1 b e0 = b := by unfold step1; simp [h]
      rcases ih b with h1 | ⟨l1, e, l2, hdec, hres, hl1, hb, hl2⟩
      · left; rw [List.foldl_cons, hstep, h1]
      · right
        refine ⟨e0 :: l1, e, l2, by simp [hdec], by rw [List.foldl_cons, hstep, hres], ?_, hb, hl2⟩
        intro x hx
        rcases List.mem_cons.mp hx with rfl | hx
        · exact lt_of_le_of_lt (not_lt.mp h) hb
        · exact hl1 x hx

theorem filterMap_flatMap' {α β γ : Type} (l : List α) (f : α → List β) (g : β → Option γ) :
    (l.flatMap f).filterMap g = l.flatMap (fun a => (f a).filterMap g) := by
  induction l with
  | nil => simp
  | cons a rest ih => simp [List.flatMap_cons, List.filterMap_append, ih]

theorem flatMap_congr' {α β : Type} (l : List α) (f g : α → List β)
    (h : ∀ a ∈ l, f a = g a) : l.flatMap f = l.flatMap g := by
  induction l with
  | nil => simp
  | cons a rest ih =>
    simp only [List.flatMap_cons]
    rw [h a (by simp), ih fun x hx => h x (by simp [hx])]

theorem flatMap_singleton_eq_map {α β : Type} (l : List α) (g : α → List β) (f : α → β)
    (h : ∀ a ∈ l, g a = [f a]) : l.flatMap g = l.map f := by
  induction l with
  | nil => simp
  | cons a rest ih =>
    simp only [List.flatMap_cons, List.map_cons]
    rw [h a (by simp), ih fun x hx => h x (by simp [hx])]
    rfl

theorem flatMap_nil_of_forall {α β : Type} (l : List α) (g : α → List β)
    (h : ∀ a ∈ l, g a = []) : l.flatMap g = [] := by
  induction l with
  | nil => simp
  | cons a rest ih =>
    simp only [List.flatMap_cons]
    rw [h a (by simp), ih fun x hx => h x (by simp [hx])]
    rfl

theorem filterMap_ifeq_range' {γ : Type} (k : Nat) (x : γ) :
    ∀ (len s : Nat), (List.range' s len).filterMap
        (fun j => if j = k then some x else none)
      = if s ≤ k ∧ k < s + len then [x] else [] := by
  intro len
  induction len with
  | zero =>
    intro s
    have : ¬(s ≤ k ∧ k < s + 0) := by omega
    simp [this]
  | succ m ih =>
    intro s
    rw [List.range'_succ, List.filterMap_cons]
    by_cases h : s = k
    · have hnone : ¬(s + 1 ≤ k ∧ k < s + 1 + m) := by omega
      have htail := ih (s + 1)
      rw [if_neg hnone] at htail
      simp only [if_pos h, htail]
      rw [if_pos (by omega : s ≤ k ∧ k < s + (m + 1))]
    · simp only [if_neg h]
      rw [ih (s + 1)]
      split_ifs <;> first | rfl | omega

/-- The pair list touches slot `k` exactly with the events of `occList`,
in that order. -/
theorem allPairs_occs (n k : Nat) (score : Nat → Nat → ℚ) (hk : k < n) :
    (allPairs n).filterMap (occOf k score) = occList n k score := by
  unfold allPairs occList
  rw [filterMap_flatMap']
  have hinner : ∀ i, i < n →
      ((List.range' (i + 1) (n - (i + 1))).map (fun j => (i, j))).filterMap (occOf k score)
        = if i = k then (List.range' (k + 1) (n - (k + 1))).map (fun j => (j, score k j))
          else if i < k then [(i, score i k)] else [] := by
    intro i hi
    rw [List.filterMap_map]
    by_cases hik : i = k
    · subst hik
      rw [if_pos rfl]
      rw [List.filterMap_congr
        (show ∀ j ∈ List.range' (i + 1) (n - (i + 1)),
            (occOf i score ∘ fun j => (i, j)) j = (some ∘ fun j => (j, score i j)) j from
          fun j _ => by simp [occOf])]
      exact congrFun (List.filterMap_eq_map _) _
    · rw [if_neg hik]
      rw [List.filterMap_congr
        (show ∀ j ∈ List.range' (i + 1) (n - (i + 1)),
            (occOf k score ∘ fun j => (i, j)) j
              = (fun j => if j = k then some (i, score i k) else none) j from by
          intro j _
          by_cases hjk : j = k
          · subst hjk; simp [occOf, hik]
          · simp [occOf, hik, hjk])]
      rw [filterMap_ifeq_range' k ((i : Nat), score i k) (n - (i + 1)) (i + 1)]
      split_ifs <;> first | rfl | omega
  rw [flatMap_congr' _ _ _ (fun i hi => hinner i (List.mem_range.mp hi))]
  have hsplit : List.range n = List.range' 0 k ++ k :: List.range' (k + 1) (n - (k + 1)) := by
    rw [List.range_eq_range']
    calc List.range' 0 n = List.range' 0 ((n - k) + k) := by rw [show (n - k) + k = n by omega]
      _ = List.range' 0 k ++ List.range' (0 + 1 * k) (n - k) := (List.range'_append 0 k (n - k) 1).symm
      _ = List.range' 0 k ++ List.range' k ((n - (k + 1)) + 1) := by
            rw [show (0 + 1 * k) = k by omega, show n - k = (n - (k + 1)) + 1 by omega]
      _ = List.range' 0 k ++ (k :: List.range' (k + 1) (n - (k + 1))) := by rw [List.range'_succ]
  rw [hsplit, List.flatMap_append, List.flatMap_cons]
  rw [flatMap_singleton_eq_map (List.range' 0 k) _ (fun i => ((i : Nat), score i k))
    (fun i hi => by
      have := List.mem_range'_1.mp hi
      rw [if_neg (by omega), if_pos (by omega)])]
  rw [if_pos rfl]
  rw [flatMap_nil_of_forall (List.range' (k + 1) (n - (k + 1))) _
    (fun j hj => by
      have := List.mem_range'_1.mp hj
      rw [if_neg (by omega), if_neg (by omega)])]
  rw [List.append_nil, List.range_eq_range']

/-- The event list for one slot carries strictly increasing partner
indices. -/
theorem occList_pairwise (n k : Nat) (score : Nat → Nat → ℚ) :
    (occList n k score).Pairwise (fun a b => a.1 < b.1) := by
  unfold occList
  rw [List.pairwise_append]
  refine ⟨?_, ?_, ?_⟩
  · exact (List.pairwise_lt_range k).map _ (fun a b h => h)
  · exact (List.pairwise_lt_range' (k + 1) (n - (k + 1))).map _ (fun a b h => h)
  · intro x hx y hy
    simp only [List.mem_map, List.mem_range, List.mem_range'_1] at hx hy
    obtain ⟨i, hi, rfl⟩ := hx
    obtain ⟨j, hj, rfl⟩ := hy
    simp only
    omega

/-- Membership in the event list characterises the partners of `k`. -/
theorem occList_mem (n k : Nat) (score : Nat → Nat → ℚ) (x : Nat × ℚ) :
    x ∈ occList n k score ↔
      (x.1 < k ∧ x.2 = score x.1 k) ∨ (k < x.1 ∧ x.1 < n ∧ x.2 = score k x.1) := by
  obtain ⟨a, b⟩ := x
  unfold occList
  simp only [List.mem_append, List.mem_map, List.mem_range, List.mem_range'_1, Prod.mk.injEq]
  constructor
  · rintro (⟨i, hi, rfl, rfl⟩ | ⟨j, hj, rfl, rfl⟩)
    · exact Or.inl ⟨hi, rfl⟩
    · exact Or.inr ⟨by omega, by omega, rfl⟩
  · rintro (⟨h1, rfl⟩ | ⟨h1, h2, rfl⟩)
    · exact Or.inl ⟨a, h1, rfl, rfl⟩
    · exact Or.inr ⟨a, by omega, rfl, rfl⟩

/-- Full characterisation of one slot after the scoring pass: the retained
partner is valid, its score is the stored best, the stored best dominates
all pairwise scores, and among equal maximisers the smallest partner index
is kept. -/
theorem scoringPass_slot_aux (n : Nat) (score : Nat → Nat → ℚ)
    (hn : 2 ≤ n) (hpos : ∀ i j, 0 ≤ score i j) (k : Nat) (hk : k < n) :
    ((scoringPass n score).bestIdx k < n ∧ (scoringPass n score).bestIdx k ≠ k) ∧
    (scoringPass n score).bestScore k
      = pairScore score k ((scoringPass n score).bestIdx k) ∧
    (∀ j, j < n → j ≠ k → pairScore score k j ≤ (scoringPass n score).bestScore k) ∧
    (∀ j, j < n → j ≠ k → pairScore score k j = (scoringPass n score).bestScore k →
      (scoringPass n score).bestIdx k ≤ j) := by
  have hne : ∀ p ∈ allPairs n, p.1 ≠ p.2 := by
    intro p hp
    unfold allPairs at hp
    simp only [List.mem_flatMap, List.mem_map, List.mem_range, List.mem_range'_1] at hp
    obtain ⟨i, hi, j, hj, rfl⟩ := hp
    simp only
    omega
  have hslot : ((scoringPass n score).bestIdx k, (scoringPass n score).bestScore k)
      = (occList n k score).foldl step1 (n, -1) := by
    have h := foldl_stepPair_proj score (allPairs n) hne (initState n) k
    rw [allPairs_occs n k score hk] at h
    exact h
  have hjmem : ∀ j, j < n → j ≠ k → ((j : Nat), pairScore score k j) ∈ occList n k score := by
    intro j hj hjk
    rw [occList_mem]
    by_cases h : j < k
    · exact Or.inl ⟨h, by unfold pairScore; rw [if_neg (by omega)]⟩
    · exact Or.inr ⟨by omega, hj, by unfold pairScore; rw [if_pos (by omega)]⟩
  have hexists : ∃ e ∈ occList n k score, (-1 : ℚ) < e.2 := by
    by_cases h0 : k = 0
    · refine ⟨(1, pairScore score k 1), hjmem 1 (by omega) (by omega), ?_⟩
      have h1 := hpos k 1
      have h2 := hpos 1 k
      unfold pairScore
      split <;> simp only <;> linarith
    · refine ⟨(0, pairScore score k 0), hjmem 0 (by omega) (fun h => h0 h.symm), ?_⟩
      have h1 := hpos k 0
      have h2 := hpos 0 k
      unfold pairScore
      split <;> simp only <;> linarith
  rcases foldl_step1_first (occList n k score) (n, -1) with hcase | ⟨l1, e, l2, hdec, hres, hl1, hb, hl2⟩
  · exfalso
    obtain ⟨e, he, hlt⟩ := hexists
    have hge := (foldl_step1_score_ge (occList n k score) (n, -1)).2 e he
    rw [hcase] at hge
    simp only at hge
    linarith
  · rw [hres] at hslot
    have hIdx : (scoringPass n score).bestIdx k = e.1 := congrArg Prod.fst hslot
    have hScore : (scoringPass n score).bestScore k = e.2 := congrArg Prod.snd hslot
    have heMem : e ∈ occList n k score := by rw [hdec]; simp
    have heChar := (occList_mem n k score e).mp heMem
    have hePair : e.2 = pairScore score k e.1 ∧ e.1 ≠ k ∧ e.1 < n := by
      rcases heChar with ⟨h1, h2⟩ | ⟨h1, h2, h3⟩
      · exact ⟨by rw [h2]; unfold pairScore; rw [if_neg (by omega)], by omega, by omega⟩
      · exact ⟨by rw [h3]; unfold pairScore; rw [if_pos h1], by omega, h2⟩
    refine ⟨⟨by rw [hIdx]; exact hePair.2.2, by rw [hIdx]; exact hePair.2.1⟩, ?_, ?_, ?_⟩
    · rw [hIdx, hScore]; exact hePair.1
    · intro j hj hjk
      have hge := (foldl_step1_score_ge (occList n k score) (n, -1)).2 _ (hjmem j hj hjk)
      rw [hres] at hge
      rw [hScore]
      exact hge
    · intro j hj hjk hjeq
      have hmem2 := hjmem j hj hjk
      rw [hdec] at hmem2
      rw [hScore] at hjeq
      rcases List.mem_append.mp hmem2 with hin1 | hin2
      · exfalso
        have hlt := hl1 _ hin1
        simp only at hlt
        linarith [hjeq]
      · rcases List.mem_cons.mp hin2 with heq | hin2'
        · have : j = e.1 := congrArg Prod.fst heq
          rw [hIdx]; omega
        · have hpw := occList_pairwise n k score
          rw [hdec, List.pairwise_append, List.pairwise_cons] at hpw
          have hlt : e.1 < j := by
            have := hpw.2.1.1 _ hin2'
            simpa using this
          rw [hIdx]; omega

/-- C2: during the scoring pass the slots are updated only on strict
improvements, so every document retains the partner with the smallest
index among those achieving the maximal pairwise score (and that score is
exactly the stored best). -/
theorem scoringPass_first_max (n : Nat) (score : Nat → Nat → ℚ)
    (hn : 2 ≤ n) (hpos : ∀ i j, 0 ≤ score i j) (k : Nat) (hk : k < n) :
    ((scoringPass n score).bestIdx k < n ∧ (scoringPass n score).bestIdx k ≠ k) ∧
    (scoringPass n score).bestScore k
      = pairScore score k ((scoringPass n score).bestIdx k) ∧
    (∀ j, j < n → j ≠ k → pairScore score k j ≤ (scoringPass n score).bestScore k) ∧
    (∀ j, j < n → j ≠ k → pairScore score k j = (scoringPass n score).bestScore k →
      (scoringPass n score).bestIdx k ≤ j) :=
  scoringPass_slot_aux n score hn hpos k hk

/-- Witness for the C2 theorem on a two-document corpus with constant
scores. -/
theorem scoringPass_first_max_witness :
    2 ≤ 2 ∧ 0 < 2 ∧
    ((scoringPass 2 fun _ _ => 1).bestIdx 0 < 2 ∧ (scoringPass 2 fun _ _ => 1).bestIdx 0 ≠ 0) ∧
    (scoringPass 2 fun _ _ => 1).bestScore 0
      = pairScore (fun _ _ => 1) 0 ((scoringPass 2 fun _ _ => 1).bestIdx 0) :=
  ⟨by norm_num, by norm_num,
    (scoringPass_first_max 2 (fun _ _ => 1) (by norm_num) (fun _ _ => zero_le_one) 0
      (by norm_num)).1,
    (scoringPass_first_max 2 (fun _ _ => 1) (by norm_num) (fun _ _ => zero_le_one) 0
      (by norm_num)).2.1⟩

/-- C10: with the best score initialised to -1 and all similarity scores
nonnegative, every document of a corpus of at least two usable documents
ends the scoring pass with a valid best partner. -/
theorem scoringPass_valid_partner (n : Nat) (score : Nat → Nat → ℚ)
    (hn : 2 ≤ n) (hpos : ∀ i j, 0 ≤ score i j) (k : Nat) (hk : k < n) :
    (scoringPass n score).bestIdx k < n :=
  ((scoringPass_slot_aux n score hn hpos k hk).1).1

/-- Witness for the C10 theorem with all pairwise similarities exactly 0. -/
theorem scoringPass_valid_partner_witness :
    2 ≤ 2 ∧ 1 < 2 ∧ (scoringPass 2 fun _ _ => 0).bestIdx 1 < 2 :=
  ⟨by norm_num, by norm_num,
    scoringPass_valid_partner 2 (fun _ _ => 0) (by norm_num) (fun _ _ => le_refl 0) 1
      (by norm_num)⟩

theorem compareParts_antisymm (l r : List Int) : compareParts r l = -compareParts l r := by
  induction l generalizing r with
  | nil =>
    induction r with
    | nil => simp [compareParts]
    | cons x xs ihx =>
      simp only [compareParts]
      by_cases h : x = 0
      · subst h; simpa using ihx
      · rw [if_pos h, if_pos (fun he => h he.symm)]
        split_ifs <;> omega
  | cons a as iha =>
    cases r with
    | nil =>
      simp only [compareParts]
      by_cases h : a = 0
      · subst h; simpa using iha []
      · rw [if_pos h, if_pos (fun he => h he.symm)]
        split_ifs <;> omega
    | cons b bs =>
      simp only [compareParts]
      by_cases h : a = b
      · subst h; simpa using iha bs
      · rw [if_pos (fun he => h he.symm), if_pos h]
        split_ifs <;> omega

theorem compareVersionInfo_antisymm (L R : VersionInfo) :
    CompareVersionInfo R L = -CompareVersionInfo L R := by
  have htag : ∀ (x y : Bool), x ≠ y →
      (if y = true then (1 : Int) else -1) = -(if x = true then 1 else -1) := by decide
  have hmix : ∀ (lv rv lt rt : Bool), lv ≠ rv →
      (if ¬rv = true then (if rt = true then (1 : Int) else -1)
        else (if lt = true then -1 else 1))
        = -(if ¬lv = true then (if lt = true then 1 else -1)
            else (if rt = true then -1 else 1)) := by decide
  simp only [CompareVersionInfo]
  by_cases hd : L.is_date = R.is_date
  · have hd1 : ¬(R.is_date ≠ L.is_date) := by simp [hd]
    have hd2 : ¬(L.is_date ≠ R.is_date) := by simp [hd]
    rw [if_neg hd1, if_neg hd2]
    by_cases hv : L.has_version = true ∧ R.has_version = true
    · rw [if_pos ⟨hv.2, hv.1⟩, if_pos hv]
      rw [compareParts_antisymm L.parts R.parts]
      by_cases hpc : compareParts L.parts R.parts = 0
      · rw [hpc]
        simp only [neg_zero]
        have h0 : ¬((0 : Int) ≠ 0) := by omega
        rw [if_neg h0, if_neg h0]
        by_cases hs : L.suffix = R.suffix
        · have hs1 : ¬(R.suffix ≠ L.suffix) := by simp [hs]
          have hs2 : ¬(L.suffix ≠ R.suffix) := by simp [hs]
          rw [if_neg hs1, if_neg hs2]
          by_cases ht : L.has_tag = R.has_tag
          · have ht1 : ¬(R.has_tag ≠ L.has_tag) := by simp [ht]
            have ht2 : ¬(L.has_tag ≠ R.has_tag) := by simp [ht]
            rw [if_neg ht1, if_neg ht2]
            norm_num
          · rw [if_pos (fun h => ht h.symm), if_pos ht]
            exact htag L.has_tag R.has_tag ht
        · rw [if_pos (fun h => hs h.symm), if_pos hs]
          split_ifs <;> omega
      · have hpc2 : -compareParts L.parts R.parts ≠ 0 := by simpa using hpc
        rw [if_pos hpc2, if_pos hpc]
    · have hv1 : ¬(R.has_version = true ∧ L.has_version = true) := fun h => hv ⟨h.2, h.1⟩
      rw [if_neg hv1, if_neg hv]
      by_cases hv2 : L.has_version = R.has_version
      · have h1 : ¬(R.has_version ≠ L.has_version) := by simp [hv2]
        have h2 : ¬(L.has_version ≠ R.has_version) := by simp [hv2]
        rw [if_neg h1, if_neg h2]
        by_cases ht : L.has_tag = R.has_tag
        · have ht1 : ¬(R.has_tag ≠ L.has_tag) := by simp [ht]
          have ht2 : ¬(L.has_tag ≠ R.has_tag) := by simp [ht]
          rw [if_neg ht1, if_neg ht2]
          norm_num
        · rw [if_pos (fun h => ht h.symm), if_pos ht]
          exact htag L.has_tag R.has_tag ht
      · rw [if_pos (fun h => hv2 h.symm), if_pos hv2]
        exact hmix L.has_version R.has_version L.has_tag R.has_tag hv2
  · rw [if_pos (fun h => hd h.symm), if_pos hd]
    exact htag L.is_date R.is_date hd

theorem chooseMoveIndex_comm (i j : Nat) (versions : Nat → VersionInfo)
    (times : Nat → FileTimeInfo) :
    ChooseMoveIndex j i versions times = ChooseMoveIndex i j versions times := by
  simp only [ChooseMoveIndex]
  rw [compareVersionInfo_antisymm (versions i) (versions j)]
  by_cases h : CompareVersionInfo (versions i) (versions j) = 0
  · rw [h]
    simp only [neg_zero]
    have h0 : ¬((0 : Int) ≠ 0) := by omega
    rw [if_neg h0, if_neg h0]
    by_cases h2 : (times i).valid = true ∧ (times j).valid = true ∧
        (times i).value ≠ (times j).value
    · have h2' : (times j).valid = true ∧ (times i).valid = true ∧
          (times j).value ≠ (times i).value :=
        ⟨h2.2.1, h2.1, fun he => h2.2.2 he.symm⟩
      rw [if_pos h2', if_pos h2]
      have := h2.2.2
      split_ifs <;> omega
    · have h2'' : ¬((times j).valid = true ∧ (times i).valid = true ∧
          (times j).value ≠ (times i).value) :=
        fun hh => h2 ⟨hh.2.1, hh.1, fun he => hh.2.2 he.symm⟩
      rw [if_neg h2'', if_neg h2]
      by_cases h3 : (times i).valid = (times j).valid
      · have h3a : ¬((times j).valid ≠ (times i).valid) := by simp [h3]
        have h3b : ¬((times i).valid ≠ (times j).valid) := by simp [h3]
        rw [if_neg h3a, if_neg h3b]
        split_ifs <;> omega
      · rw [if_pos (fun hh => h3 hh.symm), if_pos h3]
        cases hvi : (times i).valid <;> cases hvj : (times j).valid <;> simp_all
  · have h' : -CompareVersionInfo (versions i) (versions j) ≠ 0 := by simpa using h
    rw [if_pos h', if_pos h]
    split_ifs <;> omega

theorem chooseMoveIndex_cases (i j : Nat) (versions : Nat → VersionInfo)
    (times : Nat → FileTimeInfo) :
    ChooseMoveIndex i j versions times = i ∨ ChooseMoveIndex i j versions times = j := by
  simp only [ChooseMoveIndex]
  split_ifs <;> simp

theorem filter_filterMap' {α β : Type} (l : List α) (f : α → Option β) (p : β → Bool) :
    (l.filterMap f).filter p = l.filterMap (fun a => (f a).filter p) := by
  induction l with
  | nil => simp
  | cons a rest ih =>
    rw [List.filterMap_cons, List.filterMap_cons]
    cases hf : f a with
    | none => simpa using ih
    | some b =>
      cases hp : p b with
      | false => simp [List.filter_cons, hp, Option.filter, ih]
      | true => simp [List.filter_cons, hp, Option.filter, ih]

theorem filterMap_singleton_of {α β : Type} (g : α → Option β) (x0 : α) (y : β) :
    ∀ (l : List α), l.Nodup → x0 ∈ l → g x0 = some y →
      (∀ x ∈ l, x ≠ x0 → g x = none) → l.filterMap g = [y] := by
  intro l
  induction l with
  | nil => intro _ hx _ _; cases hx
  | cons a rest ih =>
    intro hnd hx hg hother
    rcases List.mem_cons.mp hx with rfl | hx'
    · have hrest : rest.filterMap g = [] := by
        rw [List.filterMap_eq_nil_iff]
        intro x hxr
        exact hother x (by simp [hxr]) (fun he => (List.nodup_cons.mp hnd).1 (he ▸ hxr))
      simp [List.filterMap_cons, hg, hrest]
    · have hax : a ≠ x0 := fun he => (List.nodup_cons.mp hnd).1 (he ▸ hx')
      have h0 := hother a (by simp) hax
      simp only [List.filterMap_cons, h0]
      exact ih (List.nodup_cons.mp hnd).2 hx' hg
        (fun x hxr hne => hother x (by simp [hxr]) hne)

/-- Every row emitted by the row-construction loop at iteration `i` has `i`
as its left entry. -/
theorem rowFn_fst (n : Nat) (bestIdx : Nat → Nat) (bestScore : Nat → ℚ)
    (versions : Nat → VersionInfo) (times : Nat → FileTimeInfo) (i : Nat)
    (r : Nat × Nat) (h : rowFn n bestIdx bestScore versions times i = some r) :
    r.1 = i := by
  simp only [rowFn] at h
  split_ifs at h with h1 h2 h3
  all_goals try cases h
  all_goals simp only [Prod.fst]
  all_goals omega

/-- C3 counterexample: with two documents of pairwise similarity 0 the
pair (0, 1) is a reciprocal best match, yet the output contains two rows
for the pair, because the reciprocal-pair branch additionally requires
both best scores to pass the 1e-8 output threshold (which 0 fails). -/
theorem mkRows_zero_score_two_rows :
    (fun x => 1 - x : Nat → Nat) 0 = 1 ∧ (fun x => 1 - x : Nat → Nat) 1 = 0 ∧
    mkRows 2 (fun x => 1 - x) (fun _ => 0) (fun _ => ⟨false, false, [], 0, false⟩)
      (fun _ => ⟨false, 0⟩) = [(0, 1), (1, 0)] := by
  refine ⟨rfl, rfl, ?_⟩
  have hfail : IsDedupScore ((fun _ => (0 : ℚ)) 0) outputPairThreshold = false := by
    norm_num [IsDedupScore, outputPairThreshold]
  have hrange : List.range 2 = [0, 1] := rfl
  unfold mkRows
  rw [hrange]
  simp only [List.filterMap_cons, List.filterMap_nil, rowFn, hfail]
  norm_num

/-- C3 amended: for every reciprocal best-match pair both of whose best
scores pass the widened 1e-8 output threshold, the output contains exactly
one row for the pair, with the `ChooseMoveIndex` keeper on the left and
the duplicate on the right; the row of the duplicate-side document is
suppressed.  (A reciprocal pair failing the threshold is emitted as two
plain rows instead.) -/
theorem mkRows_reciprocal_once (n i j : Nat) (bestIdx : Nat → Nat) (bestScore : Nat → ℚ)
    (versions : Nat → VersionInfo) (times : Nat → FileTimeInfo)
    (hi : i < n) (hj : j < n) (hij : i ≠ j)
    (hbi : bestIdx i = j) (hbj : bestIdx j = i)
    (hsi : IsDedupScore (bestScore i) outputPairThreshold = true)
    (hsj : IsDedupScore (bestScore j) outputPairThreshold = true) :
    (mkRows n bestIdx bestScore versions times).filter
        (fun r => decide ((r.1 = i ∧ r.2 = j) ∨ (r.1 = j ∧ r.2 = i)))
      = [((if ChooseMoveIndex i j versions times = i then j else i),
          ChooseMoveIndex i j versions times)] := by
  unfold mkRows
  rw [filter_filterMap']
  have hcomm := chooseMoveIndex_comm i j versions times
  have hji : j ≠ i := fun h => hij h.symm
  rcases chooseMoveIndex_cases i j versions times with hdup | hdup
  · -- the duplicate is i: the single row comes from iteration j
    rw [hdup, if_pos rfl]
    refine filterMap_singleton_of _ j ((j : Nat), i) (List.range n) (List.nodup_range n)
      (List.mem_range.mpr hj) ?_ ?_
    · have hrow : rowFn n bestIdx bestScore versions times j = some ((j : Nat), i) := by
        simp only [rowFn, hbj]
        rw [if_pos ⟨hi, hbi, hsj, hsi⟩, hcomm, hdup]
        rw [if_neg hij, if_neg (not_ne_iff.mpr rfl)]
      rw [hrow]
      simp [Option.filter]
    · intro x hx hxj
      by_cases hxi : x = i
      · subst hxi
        have hrow : rowFn n bestIdx bestScore versions times x = none := by
          simp only [rowFn, hbi]
          rw [if_pos ⟨hj, hbj, hsi, hsj⟩, hdup]
          rw [if_pos rfl, if_pos hij]
        rw [hrow]
        rfl
      · cases hr : rowFn n bestIdx bestScore versions times x with
        | none => rfl
        | some r =>
          have hr1 := rowFn_fst n bestIdx bestScore versions times x r hr
          have hnot : ¬((r.1 = i ∧ r.2 = j) ∨ (r.1 = j ∧ r.2 = i)) := by
            rw [hr1]
            rintro (⟨h1, _⟩ | ⟨h1, _⟩)
            · exact hxi h1
            · exact hxj h1
          simp [Option.filter, hnot]
  · -- the duplicate is j: the single row comes from iteration i
    rw [hdup, if_neg hji]
    refine filterMap_singleton_of _ i ((i : Nat), j) (List.range n) (List.nodup_range n)
      (List.mem_range.mpr hi) ?_ ?_
    · have hrow : rowFn n bestIdx bestScore versions times i = some ((i : Nat), j) := by
        simp only [rowFn, hbi]
        rw [if_pos ⟨hj, hbj, hsi, hsj⟩, hdup]
        rw [if_neg hji, if_neg (not_ne_iff.mpr rfl)]
      rw [hrow]
      simp [Option.filter]
    · intro x hx hxi
      by_cases hxj : x = j
      · subst hxj
        have hrow : rowFn n bestIdx bestScore versions times x = none := by
          simp only [rowFn, hbj]
          rw [if_pos ⟨hi, hbi, hsj, hsi⟩, hcomm, hdup]
          rw [if_pos rfl, if_pos hji]
        rw [hrow]
        rfl
      · cases hr : rowFn n bestIdx bestScore versions times x with
        | none => rfl
        | some r =>
          have hr1 := rowFn_fst n bestIdx bestScore versions times x r hr
          have hnot : ¬((r.1 = i ∧ r.2 = j) ∨ (r.1 = j ∧ r.2 = i)) := by
            rw [hr1]
            rintro (⟨h1, _⟩ | ⟨h1, _⟩)
            · exact hxi h1
            · exact hxj h1
          simp [Option.filter, hnot]

/-- Witness for the amended C3 theorem on a two-document reciprocal pair
with score 1. -/
theorem mkRows_reciprocal_once_witness :
    (0 : Nat) < 2 ∧ (1 : Nat) < 2 ∧ (0 : Nat) ≠ 1 ∧
    IsDedupScore ((fun _ => (1 : ℚ)) 0) outputPairThreshold = true ∧
    (mkRows 2 (fun x => 1 - x) (fun _ => 1) (fun _ => ⟨false, false, [], 0, false⟩)
        (fun _ => ⟨false, 0⟩)).filter
        (fun r => decide ((r.1 = 0 ∧ r.2 = 1) ∨ (r.1 = 1 ∧ r.2 = 0)))
      = [((if ChooseMoveIndex 0 1 (fun _ => ⟨false, false, [], 0, false⟩)
              (fun _ => ⟨false, 0⟩) = 0 then 1 else 0),
          ChooseMoveIndex 0 1 (fun _ => ⟨false, false, [], 0, false⟩)
            (fun _ => ⟨false, 0⟩))] :=
  ⟨by decide, by decide, by decide, by norm_num [IsDedupScore, outputPairThreshold],
    mkRows_reciprocal_once 2 0 1 (fun x => 1 - x) (fun _ => 1)
      (fun _ => ⟨false, false, [], 0, false⟩) (fun _ => ⟨false, 0⟩)
      (by decide) (by decide) (by decide) (by decide) (by decide)
      (by norm_num [IsDedupScore, outputPairThreshold])
      (by norm_num [IsDedupScore, outputPairThreshold])⟩

/-- A successful non-final decode is unaffected by appending more bytes to
the buffer. -/
theorem decodeUtf8_append (p b : List Nat) (r : Nat × Nat)
    (h : DecodeUtf8 p false = some r) : DecodeUtf8 (p ++ b) false = some r := by
  simp only [DecodeUtf8] at h ⊢
  by_cases h0 : p.length = 0
  · rw [if_pos h0] at h
    exact absurd h (by simp)
  · rw [if_neg h0] at h
    rw [if_neg (show ¬((p ++ b).length = 0) by rw [List.length_append]; omega),
      List.getD_append p b 0 0 (by omega)]
    by_cases hA : p.getD 0 0 < 0x80
    · rw [if_pos hA] at h ⊢; exact h
    · rw [if_neg hA] at h ⊢
      by_cases hB : p.getD 0 0 < 0xC2
      · rw [if_pos hB] at h ⊢; exact h
      · rw [if_neg hB] at h ⊢
        by_cases hC : p.getD 0 0 < 0xE0
        · rw [if_pos hC] at h ⊢
          by_cases hl : p.length < 2
          · rw [if_pos hl] at h
            exact absurd h (by simp)
          · rw [if_neg hl] at h
            rw [if_neg (show ¬((p ++ b).length < 2) by rw [List.length_append]; omega),
              List.getD_append p b 0 1 (by omega)]
            exact h
        · rw [if_neg hC] at h ⊢
          by_cases hD : p.getD 0 0 < 0xF0
          · rw [if_pos hD] at h ⊢
            by_cases hl : p.length < 3
            · rw [if_pos hl] at h
              exact absurd h (by simp)
            · rw [if_neg hl] at h
              rw [if_neg (show ¬((p ++ b).length < 3) by rw [List.length_append]; omega),
                List.getD_append p b 0 1 (by omega), List.getD_append p b 0 2 (by omega)]
              exact h
          · rw [if_neg hD] at h ⊢
            by_cases hE : p.getD 0 0 < 0xF5
            · rw [if_pos hE] at h ⊢
              by_cases hl : p.length < 4
              · rw [if_pos hl] at h
                exact absurd h (by simp)
              · rw [if_neg hl] at h
                rw [if_neg (show ¬((p ++ b).length < 4) by rw [List.length_append]; omega),
                  List.getD_append p b 0 1 (by omega), List.getD_append p b 0 2 (by omega),
                  List.getD_append p b 0 3 (by omega)]
                exact h
            · rw [if_neg hE] at h ⊢
              exact h

/-- A successful non-final decode also succeeds, with the same result, on
the final chunk. -/
theorem decodeUtf8_final_mono (p : List Nat) (r : Nat × Nat)
    (h : DecodeUtf8 p false = some r) : DecodeUtf8 p true = some r := by
  simp only [DecodeUtf8] at h ⊢
  by_cases h0 : p.length = 0
  · rw [if_pos h0] at h
    exact absurd h (by simp)
  · rw [if_neg h0] at h ⊢
    by_cases hA : p.getD 0 0 < 0x80
    · rw [if_pos hA] at h ⊢; exact h
    · rw [if_neg hA] at h ⊢
      by_cases hB : p.getD 0 0 < 0xC2
      · rw [if_pos hB] at h ⊢; exact h
      · rw [if_neg hB] at h ⊢
        by_cases hC : p.getD 0 0 < 0xE0
        · rw [if_pos hC] at h ⊢
          by_cases hl : p.length < 2
          · rw [if_pos hl] at h
            exact absurd h (by simp)
          · rw [if_neg hl] at h ⊢
            exact h
        · rw [if_neg hC] at h ⊢
          by_cases hD : p.getD 0 0 < 0xF0
          · rw [if_pos hD] at h ⊢
            by_cases hl : p.length < 3
            · rw [if_pos hl] at h
              exact absurd h (by simp)
            · rw [if_neg hl] at h ⊢
              exact h
          · rw [if_neg hD] at h ⊢
            by_cases hE : p.getD 0 0 < 0xF5
            · rw [if_pos hE] at h ⊢
              by_cases hl : p.length < 4
              · rw [if_pos hl] at h
                exact absurd h (by simp)
              · rw [if_neg hl] at h ⊢
                exact h
            · rw [if_neg hE] at h ⊢
              exact h

theorem processBuffer_of_none (P : TokParams) (final : Bool) (st : TokState)
    (h : DecodeUtf8 st.pending final = none) :
    ProcessBuffer P final st = if final then { st with pending := [] } else st := by
  rw [ProcessBuffer]
  split <;> simp_all

theorem processBuffer_of_some (P : TokParams) (final : Bool) (st : TokState) (cp k : Nat)
    (h : DecodeUtf8 st.pending final = some (cp, k)) :
    ProcessBuffer P final st
      = ProcessBuffer P final
          ⟨st.pending.drop k, (consumeCodepoint P st.token st.stats cp).1,
            (consumeCodepoint P st.token st.stats cp).2⟩ := by
  rw [ProcessBuffer]
  split <;> simp_all

theorem processBuffer_nil (P : TokParams) (tok : List Nat) (s : TokStats) :
    ProcessBuffer P false ⟨[], tok, s⟩ = ⟨[], tok, s⟩ := by
  rw [processBuffer_of_none P false ⟨[], tok, s⟩ rfl]
  simp

/-- Processing a buffer with extra bytes appended is the same as first
processing the buffer alone and then processing its unconsumed remainder
together with the extra bytes. -/
theorem processBuffer_append (P : TokParams) :
    ∀ (m : Nat) (p b tok : List Nat) (s : TokStats), p.length ≤ m →
      ProcessBuffer P false ⟨p ++ b, tok, s⟩
        = ProcessBuffer P false
            ⟨(ProcessBuffer P false ⟨p, tok, s⟩).pending ++ b,
              (ProcessBuffer P false ⟨p, tok, s⟩).token,
              (ProcessBuffer P false ⟨p, tok, s⟩).stats⟩ := by
  intro m
  induction m with
  | zero =>
    intro p b tok s hp
    have hpn : p = [] := List.length_eq_zero.mp (Nat.le_zero.mp hp)
    subst hpn
    rw [processBuffer_nil]
  | succ m ih =>
    intro p b tok s hp
    cases hdec : DecodeUtf8 p false with
    | none =>
      have h1 : ProcessBuffer P false ⟨p, tok, s⟩ = ⟨p, tok, s⟩ := by
        rw [processBuffer_of_none P false ⟨p, tok, s⟩ hdec]
        simp
      rw [h1]
    | some r =>
      obtain ⟨cp, k⟩ := r
      have hb := decodeUtf8_bounds p false cp k hdec
      have happ := decodeUtf8_append p b (cp, k) hdec
      rw [processBuffer_of_some P false ⟨p ++ b, tok, s⟩ cp k happ,
        processBuffer_of_some P false ⟨p, tok, s⟩ cp k hdec]
      simp only [List.drop_append_of_le_length hb.2]
      exact ih (p.drop k) b _ _ (by simp only [List.length_drop]; omega)

/-- Running the final pass is the same as first running the streaming pass
and then finishing what remains. -/
theorem processBuffer_final_split (P : TokParams) :
    ∀ (m : Nat) (p tok : List Nat) (s : TokStats), p.length ≤ m →
      ProcessBuffer P true ⟨p, tok, s⟩
        = ProcessBuffer P true
            ⟨(ProcessBuffer P false ⟨p, tok, s⟩).pending,
              (ProcessBuffer P false ⟨p, tok, s⟩).token,
              (ProcessBuffer P false ⟨p, tok, s⟩).stats⟩ := by
  intro m
  induction m with
  | zero =>
    intro p tok s hp
    have hpn : p = [] := List.length_eq_zero.mp (Nat.le_zero.mp hp)
    subst hpn
    rw [processBuffer_nil]
  | succ m ih =>
    intro p tok s hp
    cases hdec : DecodeUtf8 p false with
    | none =>
      have h1 : ProcessBuffer P false ⟨p, tok, s⟩ = ⟨p, tok, s⟩ := by
        rw [processBuffer_of_none P false ⟨p, tok, s⟩ hdec]
        simp
      rw [h1]
    | some r =>
      obtain ⟨cp, k⟩ := r
      have hb := decodeUtf8_bounds p false cp k hdec
      have hmono := decodeUtf8_final_mono p (cp, k) hdec
      rw [processBuffer_of_some P true ⟨p, tok, s⟩ cp k hmono,
        processBuffer_of_some P false ⟨p, tok, s⟩ cp k hdec]
      exact ih (p.drop k) _ _ (by simp only [List.length_drop]; omega)

/-- Two successive chunks are tokenized exactly like their concatenation
delivered at once. -/
theorem addChunk_append (P : TokParams) (st : TokState) (a b : List Nat) :
    AddChunk P (AddChunk P st a) b = AddChunk P st (a ++ b) := by
  obtain ⟨p, tok, s⟩ := st
  unfold AddChunk
  rw [← List.append_assoc]
  exact (processBuffer_append P (p ++ a).length (p ++ a) b tok s le_rfl).symm

theorem finish_addChunk_nil (P : TokParams) (st : TokState) :
    Finish P (AddChunk P st []) = Finish P st := by
  obtain ⟨p, tok, s⟩ := st
  unfold Finish AddChunk
  simp only [List.append_nil]
  rw [processBuffer_final_split P p.length p tok s le_rfl]

theorem foldl_addChunk_eq_single (P : TokParams) :
    ∀ (chunks : List (List Nat)) (st : TokState),
      Finish P (chunks.foldl (AddChunk P) st) = Finish P (AddChunk P st chunks.flatten) := by
  intro chunks
  induction chunks with
  | nil =>
    intro st
    simp only [List.foldl_nil, List.flatten_nil]
    exact (finish_addChunk_nil P st).symm
  | cons c cs ih =>
    intro st
    simp only [List.foldl_cons, List.flatten_cons]
    rw [ih (AddChunk P st c), addChunk_append]

/-- C5: for every byte sequence and every decomposition of it into
successive chunks, feeding the chunks through `AddChunk` calls followed by
`Finish` produces exactly the same statistics as delivering all the bytes
in a single `AddChunk` followed by `Finish`; in particular a multi-byte
UTF-8 sequence split at a chunk boundary is buffered and decoded, not
replaced. -/
theorem tokenizer_chunked_eq_single (P : TokParams) (chunks : List (List Nat)) :
    Finish P (chunks.foldl (AddChunk P) (initTokState ⟨[], 0⟩))
      = Finish P (AddChunk P (initTokState ⟨[], 0⟩) chunks.flatten) :=
  foldl_addChunk_eq_single P chunks (initTokState ⟨[], 0⟩)

theorem bumpCount_sum (c : List (List Nat × Nat)) (t : List Nat) :
    ((bumpCount c t).map (fun e => e.2)).sum = (c.map (fun e => e.2)).sum + 1 := by
  induction c with
  | nil => simp [bumpCount]
  | cons e rest ih =>
    obtain ⟨k, cnt⟩ := e
    simp only [bumpCount]
    split_ifs with h
    · simp only [List.map_cons, List.sum_cons]
      omega
    · simp only [List.map_cons, List.sum_cons, ih]
      omega

theorem bumpCount_pos (c : List (List Nat × Nat)) (t : List Nat)
    (h : ∀ e ∈ c, 0 < e.2) : ∀ e ∈ bumpCount c t, 0 < e.2 := by
  induction c with
  | nil =>
    intro e he
    simp only [bumpCount, List.mem_singleton] at he
    simp [he]
  | cons e0 rest ih =>
    obtain ⟨k, cnt⟩ := e0
    intro e he
    simp only [bumpCount] at he
    split_ifs at he with hkt
    · rcases List.mem_cons.mp he with rfl | hm
      · simp
      · exact h e (by simp [hm])
    · rcases List.mem_cons.mp he with rfl | hm
      · exact h (k, cnt) (by simp)
      · exact ih (fun x hx => h x (by simp [hx])) e hm

theorem addToken_inv (isStop : List Nat → Bool) (st : TokStats) (tok : List Nat)
    (h : StatsInv st) : StatsInv (AddToken isStop st tok) := by
  unfold AddToken
  split_ifs with h1 h2
  · exact h
  · exact h
  · refine ⟨?_, bumpCount_pos st.counts tok h.2⟩
    simp only [bumpCount_sum, ← h.1]

theorem processBuffer_inv (P : TokParams) (final : Bool) :
    ∀ (m : Nat) (p tok : List Nat) (s : TokStats), p.length ≤ m → StatsInv s →
      StatsInv (ProcessBuffer P final ⟨p, tok, s⟩).stats := by
  intro m
  induction m with
  | zero =>
    intro p tok s hp hs
    have hpn : p = [] := List.length_eq_zero.mp (Nat.le_zero.mp hp)
    subst hpn
    rw [processBuffer_of_none P final ⟨[], tok, s⟩ rfl]
    split <;> exact hs
  | succ m ih =>
    intro p tok s hp hs
    cases hdec : DecodeUtf8 p final with
    | none =>
      rw [processBuffer_of_none P final ⟨p, tok, s⟩ hdec]
      split <;> exact hs
    | some r =>
      obtain ⟨cp, k⟩ := r
      have hb := decodeUtf8_bounds p final cp k hdec
      rw [processBuffer_of_some P final ⟨p, tok, s⟩ cp k hdec]
      apply ih _ _ _ (by simp only [List.length_drop]; omega)
      unfold consumeCodepoint
      split_ifs
      · exact addToken_inv _ _ _ hs
      · exact addToken_inv _ _ _ hs
      · exact hs
      · exact hs

/-- C8: `AddToken`, `AddText` and `Clear` all preserve the invariant that
the stored total equals the sum of the per-term counts with every stored
count positive, and `IsEmpty` holds exactly when the total is zero. -/
theorem statisticsInvariant_preserved (P : TokParams) (st : TokStats)
    (tok text : List Nat) (h : StatsInv st) :
    StatsInv (AddToken P.isStop st tok) ∧
    StatsInv (AddText P st text) ∧
    StatsInv (ClearStats st) ∧
    (IsEmptyStats st = true ↔ st.tot = 0) := by
  refine ⟨addToken_inv P.isStop st tok h, ?_, ?_, ?_⟩
  · unfold AddText Finish AddChunk initTokState
    apply addToken_inv
    have h1 : StatsInv (ProcessBuffer P false ⟨[] ++ text, [], st⟩).stats :=
      processBuffer_inv P false ([] ++ text).length ([] ++ text) [] st le_rfl h
    exact processBuffer_inv P true _ _ _ _ le_rfl h1
  · exact ⟨rfl, fun e he => absurd he (List.not_mem_nil e)⟩
  · unfold IsEmptyStats
    simp

/-- Witness for the C8 theorem on the empty statistics store. -/
theorem statisticsInvariant_preserved_witness :
    StatsInv ⟨[], 0⟩ ∧ StatsInv (ClearStats ⟨[], 0⟩) ∧
    (IsEmptyStats (⟨[], 0⟩ : TokStats) = true ↔ (⟨[], 0⟩ : TokStats).tot = 0) :=
  ⟨⟨rfl, fun e he => absurd he (List.not_mem_nil e)⟩,
    (statisticsInvariant_preserved ⟨fun _ => false, fun _ => false, id, 0⟩ ⟨[], 0⟩ [] []
      ⟨rfl, fun e he => absurd he (List.not_mem_nil e)⟩).2.2.1,
    (statisticsInvariant_preserved ⟨fun _ => false, fun _ => false, id, 0⟩ ⟨[], 0⟩ [] []
      ⟨rfl, fun e he => absurd he (List.not_mem_nil e)⟩).2.2.2⟩

/-- Witness for the C4 theorem: a full tie (equal descriptors, both
timestamps unknown) makes the larger index the duplicate. -/
theorem chooseMoveIndex_spec_witness :
    CompareVersionInfo ((fun _ => (⟨false, false, [], 0, false⟩ : VersionInfo)) 0)
      ((fun _ => (⟨false, false, [], 0, false⟩ : VersionInfo)) 1) = 0 ∧
    ChooseMoveIndex 0 1 (fun _ => ⟨false, false, [], 0, false⟩)
      (fun _ => ⟨false, 0⟩) = max 0 1 :=
  ⟨by decide,
    (chooseMoveIndex_spec 0 1 (fun _ => ⟨false, false, [], 0, false⟩)
      (fun _ => ⟨false, 0⟩)).2.2.2.2.2.2 (by decide) (by decide) (by decide)⟩

theorem popcountBits_two_mul (w : Nat) : popcountBits (2 * w) = popcountBits w := by
  by_cases h : w = 0
  · subst h
    simp
  · rw [popcountBits, if_neg (by omega)]
    have e1 : (2 * w) % 2 = 0 := by omega
    have e2 : (2 * w) / 2 = w := by omega
    rw [e1, e2]
    omega

theorem popcountBits_two_mul_add_one (w : Nat) :
    popcountBits (2 * w + 1) = popcountBits w + 1 := by
  rw [popcountBits, if_neg (by omega)]
  have e1 : (2 * w + 1) % 2 = 1 := by omega
  have e2 : (2 * w + 1) / 2 = w := by omega
  rw [e1, e2]
  omega

theorem land_odd_even (w : Nat) : (2 * w + 1) &&& (2 * w) = 2 * w := by
  apply Nat.eq_of_testBit_eq
  intro i
  rw [Nat.testBit_land]
  cases i with
  | zero =>
    rw [Nat.testBit_zero (2 * w + 1), Nat.testBit_zero (2 * w)]
    have ha : (2 * w + 1) % 2 = 1 := by omega
    have hb : (2 * w) % 2 = 0 := by omega
    simp [ha, hb]
  | succ i =>
    rw [Nat.testBit_succ (2 * w + 1) i, Nat.testBit_succ (2 * w) i]
    have e1 : (2 * w + 1) / 2 = w := by omega
    have e2 : (2 * w) / 2 = w := by omega
    rw [e1, e2, Bool.and_self]

theorem land_even_pred (w : Nat) (hw : 0 < w) :
    (2 * w) &&& (2 * w - 1) = 2 * (w &&& (w - 1)) := by
  apply Nat.eq_of_testBit_eq
  intro i
  rw [Nat.testBit_land]
  cases i with
  | zero =>
    rw [Nat.testBit_zero (2 * w), Nat.testBit_zero (2 * w - 1),
      Nat.testBit_zero (2 * (w &&& (w - 1)))]
    have ha : (2 * w) % 2 = 0 := by omega
    have hb : (2 * (w &&& (w - 1))) % 2 = 0 := by omega
    simp [ha, hb]
  | succ i =>
    rw [Nat.testBit_succ (2 * w) i, Nat.testBit_succ (2 * w - 1) i,
      Nat.testBit_succ (2 * (w &&& (w - 1))) i]
    have e1 : (2 * w) / 2 = w := by omega
    have e2 : (2 * w - 1) / 2 = w - 1 := by omega
    have e3 : (2 * (w &&& (w - 1))) / 2 = w &&& (w - 1) := by omega
    rw [e1, e2, e3, Nat.testBit_land]

theorem popcount64_eq_popcountBits (v : Nat) : Popcount64 v = popcountBits v := by
  induction v using Nat.strong_induction_on with
  | _ v ih =>
    by_cases h0 : v = 0
    · subst h0
      simp [Popcount64, popcountBits]
    · rw [Popcount64, if_neg h0]
      rcases Nat.even_or_odd v with he | ho
      · obtain ⟨w, hw⟩ := he
        have hw2 : v = 2 * w := by omega
        subst hw2
        have hwpos : 0 < w := by omega
        rw [land_even_pred w hwpos]
        rw [ih (2 * (w &&& (w - 1)))
          (by have := Nat.and_le_right (n := w) (m := w - 1); omega)]
        rw [popcountBits_two_mul, popcountBits_two_mul]
        have e1 : Popcount64 w = Popcount64 (w &&& (w - 1)) + 1 := by
          rw [Popcount64, if_neg (by omega)]
        have e2 := ih w (by omega)
        have e3 := ih (w &&& (w - 1))
          (by have := Nat.and_le_right (n := w) (m := w - 1); omega)
        omega
      · obtain ⟨w, hw⟩ := ho
        subst hw
        rw [Nat.add_sub_cancel, land_odd_even w]
        rw [ih (2 * w) (by omega), popcountBits_two_mul, popcountBits_two_mul_add_one]

theorem popcountBits_le (k : Nat) : ∀ v, v < 2 ^ k → popcountBits v ≤ k := by
  induction k with
  | zero =>
    intro v hv
    have h1 : (2 : Nat) ^ 0 = 1 := rfl
    have : v = 0 := by omega
    subst this
    simp [popcountBits]
  | succ k ih =>
    intro v hv
    by_cases h0 : v = 0
    · subst h0
      simp [popcountBits]
    · rw [popcountBits, if_neg h0]
      have hp : (2 : Nat) ^ (k + 1) = 2 ^ k * 2 := by rw [pow_succ]
      have hd := ih (v / 2) (by omega)
      omega

theorem popcount64_le (v : Nat) (h : v < 2 ^ 64) : Popcount64 v ≤ 64 := by
  rw [popcount64_eq_popcountBits]
  exact popcountBits_le 64 v h

/-- C7: for signatures with 64-bit halves, `SimHashDistance` is exactly
popcount(xor)/128, always an exact multiple of 1/128 lying in [0, 1], and
the similarity is its complement, likewise a multiple of 1/128 in
[0, 1]. -/
theorem simHashDistance_quantised (l r : SimHash128)
    (hll : l.low < 2 ^ 64) (hlh : l.high < 2 ^ 64)
    (hrl : r.low < 2 ^ 64) (hrh : r.high < 2 ^ 64) :
    SimHashDistance l r
        = ((Popcount64 (l.low ^^^ r.low) + Popcount64 (l.high ^^^ r.high) : Nat) : ℚ) / 128 ∧
    (∃ m : Nat, m ≤ 128 ∧ SimHashDistance l r = (m : ℚ) / 128
      ∧ SimHashSimilarity l r = ((128 - m : Nat) : ℚ) / 128) ∧
    0 ≤ SimHashDistance l r ∧ SimHashDistance l r ≤ 1 ∧
    0 ≤ SimHashSimilarity l r ∧ SimHashSimilarity l r ≤ 1 := by
  have h1 : Popcount64 (l.low ^^^ r.low) ≤ 64 := popcount64_le _ (Nat.xor_lt_two_pow hll hrl)
  have h2 : Popcount64 (l.high ^^^ r.high) ≤ 64 :=
    popcount64_le _ (Nat.xor_lt_two_pow hlh hrh)
  set m := Popcount64 (l.low ^^^ r.low) + Popcount64 (l.high ^^^ r.high) with hm
  have hm128 : m ≤ 128 := by omega
  have hmq : (m : ℚ) ≤ 128 := by exact_mod_cast hm128
  have hdist : SimHashDistance l r = (m : ℚ) / 128 := rfl
  have hsub : ((128 - m : Nat) : ℚ) = 128 - (m : ℚ) := by
    push_cast [Nat.cast_sub hm128]
    ring
  refine ⟨rfl, ⟨m, hm128, hdist, ?_⟩, ?_, ?_, ?_, ?_⟩
  · unfold SimHashSimilarity
    rw [hdist, hsub]
    ring
  · rw [hdist]
    positivity
  · rw [hdist, div_le_one (by norm_num)]
    exact hmq
  · unfold SimHashSimilarity
    rw [hdist, sub_nonneg, div_le_one (by norm_num)]
    exact hmq
  · unfold SimHashSimilarity
    rw [hdist]
    have hpos : (0 : ℚ) ≤ (m : ℚ) / 128 := by positivity
    linarith

/-- Witness for the C7 theorem at concrete signatures. -/
theorem simHashDistance_quantised_witness :
    (0 : Nat) < 2 ^ 64 ∧
    0 ≤ SimHashDistance ⟨0, 0⟩ ⟨0, 0⟩ ∧ SimHashDistance ⟨0, 0⟩ ⟨0, 0⟩ ≤ 1 :=
  ⟨by norm_num,
    (simHashDistance_quantised ⟨0, 0⟩ ⟨0, 0⟩ (by norm_num) (by norm_num) (by norm_num)
      (by norm_num)).2.2.1,
    (simHashDistance_quantised ⟨0, 0⟩ ⟨0, 0⟩ (by norm_num) (by norm_num) (by norm_num)
      (by norm_num)).2.2.2.1⟩

theorem tfWeight_eq_zero (A B : Doc) (t : List Nat) (h : lookupCount A t = 0) :
    tfWeight A B t = 0 := by
  unfold tfWeight
  rw [h]
  simp

theorem sum_filter_lookup (g : List Nat → ℝ) (A B : Doc)
    (hA : ∀ t, lookupCount A t = 0 → g t = 0)
    (hB : ∀ t, lookupCount B t = 0 → g t = 0) :
    ∑ t ∈ A.terms.filter (fun t => 0 < lookupCount B t), g t
      = ∑ t ∈ B.terms.filter (fun t => 0 < lookupCount A t), g t := by
  have key : ∀ (X Y : Doc), (∀ t, lookupCount Y t = 0 → g t = 0) →
      ∑ t ∈ X.terms.filter (fun t => 0 < lookupCount Y t), g t
        = ∑ t ∈ X.terms ∩ Y.terms, g t := by
    intro X Y hY
    apply Finset.sum_subset
    · intro t ht
      simp only [Finset.mem_filter, Finset.mem_inter] at ht ⊢
      refine ⟨ht.1, ?_⟩
      by_contra hmem
      have h0 : lookupCount Y t = 0 := by unfold lookupCount; rw [if_neg hmem]
      omega
    · intro t hmem hnot
      simp only [Finset.mem_filter, Finset.mem_inter] at hmem hnot
      apply hY
      by_contra hc
      exact hnot ⟨hmem.1, by omega⟩
  rw [key A B hB, key B A hA, Finset.inter_comm]

theorem tfidfDot_comm (A B : Doc) : tfidfDot B A = tfidfDot A B := by
  unfold tfidfDot
  rw [Finset.sum_congr rfl (fun t _ => mul_comm (tfWeight B A t) (tfWeight A B t))]
  exact (sum_filter_lookup (fun t => tfWeight A B t * tfWeight B A t) A B
    (fun t h => by
      show tfWeight A B t * tfWeight B A t = 0
      rw [tfWeight_eq_zero A B t h, zero_mul])
    (fun t h => by
      show tfWeight A B t * tfWeight B A t = 0
      rw [tfWeight_eq_zero B A t h, mul_zero])).symm

/-- C6: both similarity metrics are symmetric in their two arguments. -/
theorem similarity_symmetric (A B : Doc) (sigA sigB : SimHash128) :
    TfIdfCosineSimilarity A B = TfIdfCosineSimilarity B A ∧
    SimHashSimilarity sigA sigB = SimHashSimilarity sigB sigA := by
  constructor
  · unfold TfIdfCosineSimilarity
    have hd : tfidfDot B A = tfidfDot A B := tfidfDot_comm A B
    by_cases h0 : A.tot = 0 ∨ B.tot = 0
    · have h0' : B.tot = 0 ∨ A.tot = 0 := h0.symm
      rw [if_pos h0, if_pos h0']
    · have h0' : ¬(B.tot = 0 ∨ A.tot = 0) := fun h => h0 h.symm
      rw [if_neg h0, if_neg h0']
      by_cases ht : ((A.tot : ℝ) + B.tot) ≤ 0
      · have ht' : ((B.tot : ℝ) + A.tot) ≤ 0 := by rw [add_comm]; exact ht
        rw [if_pos ht, if_pos ht']
      · have ht' : ¬(((B.tot : ℝ) + A.tot) ≤ 0) := fun hc => ht (by rw [add_comm]; exact hc)
        rw [if_neg ht, if_neg ht']
        by_cases h1 : tfidfNorm A B ≤ 0 ∨ tfidfNorm B A ≤ 0
        · have h1' : tfidfNorm B A ≤ 0 ∨ tfidfNorm A B ≤ 0 := h1.symm
          rw [if_pos h1, if_pos h1']
        · have h1' : ¬(tfidfNorm B A ≤ 0 ∨ tfidfNorm A B ≤ 0) := fun h => h1 h.symm
          rw [if_neg h1, if_neg h1']
          rw [hd, mul_comm (Real.sqrt (tfidfNorm B A)) (Real.sqrt (tfidfNorm A B))]
  · unfold SimHashSimilarity SimHashDistance
    rw [Nat.xor_comm sigA.low sigB.low, Nat.xor_comm sigA.high sigB.high]

/-- C9: documents that fail to load or are empty after stop-word removal
are dropped before scoring as non-fatal skips, and a corpus of fewer than
two usable documents aborts with exit status 2 before any scoring or
output; otherwise the pipeline proceeds to scoring and row output. -/
theorem pipeline_skips_and_fatal (sim : TokStats → TokStats → ℚ)
    (results : List (Option TokStats)) (versions : Nat → VersionInfo)
    (times : Nat → FileTimeInfo) :
    LoadAndFilter results
        = (results.filterMap id).filter (fun st => !IsEmptyStats st) ∧
    ((LoadAndFilter results).length < 2 →
      RunPipeline sim results versions times = Except.error 2) ∧
    (2 ≤ (LoadAndFilter results).length →
      ∃ rows, RunPipeline sim results versions times = Except.ok rows) := by
  refine ⟨?_, ?_, ?_⟩
  · unfold LoadAndFilter
    induction results with
    | nil => simp
    | cons r rest ih =>
      cases r with
      | none => simpa using ih
      | some st =>
        cases hE : IsEmptyStats st with
        | false => simp [List.filterMap_cons, List.filter_cons, hE, ih]
        | true => simp [List.filterMap_cons, List.filter_cons, hE, ih]
  · intro h
    unfold RunPipeline
    rw [if_pos h]
  · intro h
    unfold RunPipeline
    rw [if_neg (by omega)]
    exact ⟨_, rfl⟩

/-- Witness for the C9 theorem: one empty document, one failed load and
one good document leave a single usable document, which is fatal with
exit status 2. -/
theorem pipeline_skips_and_fatal_witness :
    (LoadAndFilter [some ⟨[], 0⟩, none, some ⟨[([97], 1)], 1⟩]).length < 2 ∧
    RunPipeline (fun _ _ => 0) [some ⟨[], 0⟩, none, some ⟨[([97], 1)], 1⟩]
        (fun _ => ⟨false, false, [], 0, false⟩) (fun _ => ⟨false, 0⟩)
      = Except.error 2 :=
  ⟨by decide,
    (pipeline_skips_and_fatal (fun _ _ => 0) [some ⟨[], 0⟩, none, some ⟨[([97], 1)], 1⟩]
      (fun _ => ⟨false, false, [], 0, false⟩) (fun _ => ⟨false, 0⟩)).2.1 (by decide)⟩

end MostSimilar
